import Mathlib

/-!
Verification development for the Code-Similarity-Analyzer core (`src/app.py`).

The Python core is shallowly embedded over `List Char`.  Python strings are
lists of characters; Python dicts with integer keys and a `0` default (the
`j2len` tables of `difflib.SequenceMatcher`) are functions `Nat → Nat`;
Python floats are modelled as exact rationals, with `round(x, 2)` modelled
as exact round-half-to-even on `ℚ`.  The regular expressions of `app.py`
are embedded as the character scanners they denote on the ASCII inputs the
tool processes (Python `\w` is `[A-Za-z0-9_]`, `\s` is the six ASCII
whitespace characters, plus their Unicode extensions which we do not model).
-/

/-- Python `\s` (ASCII range): space, tab, newline, carriage return,
vertical tab, form feed. Also the character class stripped by `str.strip()`
and `str.lstrip()`. -/
def pyIsSpace (c : Char) : Bool :=
  c = ' ' || c = '\t' || c = '\n' || c = '\r' || c = '\x0b' || c = '\x0c'

/-- Python `\w` (ASCII range): letters, digits, underscore. -/
def isWordChar (c : Char) : Bool :=
  c.isAlpha || c.isDigit || c = '_'

/-- Characters at which Python `str.splitlines()` breaks lines. -/
def isLineBreakChar (c : Char) : Bool :=
  c = '\n' || c = '\r' || c = '\x0b' || c = '\x0c' ||
  c = '\x1c' || c = '\x1d' || c = '\x1e' || c = '\x85' ||
  c = '\u2028' || c = '\u2029'

/-- Worker for `splitLines`: `acc` holds the current line reversed. -/
def splitLinesGo (acc : List Char) : List Char → List (List Char)
  | [] => if acc = [] then [] else [acc.reverse]
  | '\r' :: '\n' :: cs => acc.reverse :: splitLinesGo [] cs
  | c :: cs =>
      if isLineBreakChar c then acc.reverse :: splitLinesGo [] cs
      else splitLinesGo (c :: acc) cs

/-- Python `str.splitlines()`: `"" ↦ []`, a trailing line break yields no
trailing empty line, `"\r\n"` counts as one break. -/
def splitLines (s : List Char) : List (List Char) :=
  splitLinesGo [] s

/-- Python `str.strip()` (ASCII whitespace). -/
def pyStrip (s : List Char) : List Char :=
  ((s.dropWhile pyIsSpace).reverse.dropWhile pyIsSpace).reverse

/-- Python `str.lstrip()` (ASCII whitespace). -/
def pyLstrip (s : List Char) : List Char :=
  s.dropWhile pyIsSpace

/-- Worker for `tokensOf`: `acc` holds the current word run reversed. -/
def tokensGo (acc : List Char) : List Char → List (List Char)
  | [] => if acc = [] then [] else [acc.reverse]
  | c :: cs =>
      if isWordChar c then tokensGo (c :: acc) cs
      else if acc = [] then tokensGo [] cs
      else acc.reverse :: tokensGo [] cs

/-- `re.findall(r'\b\w+\b', s)`: the maximal runs of word characters. -/
def tokensOf (s : List Char) : List (List Char) :=
  tokensGo [] s

/-- Worker for `cutLineComments`.  In skip mode (`inComment = true`)
characters are dropped until the next `'\n'` (which `.` and `$` under
`re.MULTILINE` never consume). -/
def cutLCGo (marker : List Char) (inComment : Bool) : List Char → List Char
  | [] => []
  | c :: cs =>
      if inComment then
        if c = '\n' then '\n' :: cutLCGo marker false cs
        else cutLCGo marker true cs
      else
        if marker.isPrefixOf (c :: cs) then cutLCGo marker true cs
        else c :: cutLCGo marker false cs

/-- `re.sub(marker + r'.*?$', '', s, flags=re.MULTILINE)`: each
`'\n'`-delimited segment is cut at the first occurrence of `marker`. -/
def cutLineComments (marker : List Char) (s : List Char) : List Char :=
  cutLCGo marker false s

/-- The suffix that follows the first `"*/"` of `s`, if any. -/
def findCloseBlock : List Char → Option (List Char)
  | [] => none
  | c :: cs =>
      if c = '*' ∧ cs.head? = some '/' then some cs.tail
      else findCloseBlock cs

/-- Worker for `removeBlockComments` with fuel (the scanner restarts after
each removed span, which is not structural).  The fuel `s.length` always
suffices: every step consumes at least one character. -/
def rbGo : Nat → List Char → List Char
  | 0, s => s
  | _ + 1, [] => []
  | f + 1, c :: cs =>
      if c = '/' ∧ cs.head? = some '*' then
        match findCloseBlock cs.tail with
        | some d => rbGo f d
        | none => c :: rbGo f cs
      else c :: rbGo f cs

/-- `re.sub(r'/\*.*?\*/', '', s, flags=re.DOTALL)`: leftmost, non-greedy,
non-overlapping removal of `/* ... */` spans. -/
def removeBlockComments (s : List Char) : List Char :=
  rbGo s.length s

/-- Worker for `collapseWhitespace`: `prevSpace` records whether the
previous character belonged to a whitespace run already replaced. -/
def collapseWSGo (prevSpace : Bool) : List Char → List Char
  | [] => []
  | c :: cs =>
      if pyIsSpace c then
        if prevSpace then collapseWSGo true cs
        else ' ' :: collapseWSGo true cs
      else c :: collapseWSGo false cs

/-- `re.sub(r'\s+', ' ', s)`: each maximal whitespace run becomes one space. -/
def collapseWhitespace (s : List Char) : List Char :=
  collapseWSGo false s

/-- `normalize_code` from `app.py`: strip `//` line comments, then `#` line
comments, then `/* ... */` block comments, collapse whitespace, strip. -/
def normalize_code (code : List Char) : List Char :=
  pyStrip (collapseWhitespace (removeBlockComments
    (cutLineComments ['#'] (cutLineComments ['/', '/'] code))))

/-- Round half to even on `ℚ` (the rounding mode of Python `round`). -/
def pyRound0 (x : ℚ) : ℤ :=
  if x - ⌊x⌋ < 1/2 then ⌊x⌋
  else if 1/2 < x - ⌊x⌋ then ⌊x⌋ + 1
  else if ⌊x⌋ % 2 = 0 then ⌊x⌋ else ⌊x⌋ + 1

/-- Python `round(x, 2)`, modelled exactly on `ℚ`. -/
def round2 (x : ℚ) : ℚ :=
  (pyRound0 (x * 100) : ℚ) / 100

/-!
## `difflib.SequenceMatcher(None, a, b)` (CPython, `isjunk=None`, `autojunk=True`)

`calculate_similarity` calls `.ratio()` on characters (raw and normalized
texts) and on lines, so the matcher is embedded generically over a type with
decidable equality.  With `isjunk=None` the junk set `bjunk` is empty, so
`isbjunk` is constantly false; autojunk removes "popular" elements from the
`b2j` index when `len(b) >= 200`.
-/

section SeqMatcher

variable {α : Type} [DecidableEq α]

/-- Autojunk: an element is popular (and dropped from `b2j`) when
`len(b) >= 200` and it occurs more than `len(b) // 100 + 1` times in `b`. -/
def isPopular (b : List α) (x : α) : Bool :=
  decide (200 ≤ b.length) && decide (b.length / 100 + 1 < b.count x)

/-- `isbjunk`: with `isjunk=None` the junk set is empty. -/
def isBJunk (_b : List α) (_x : α) : Bool := false

/-- The ascending positions of `x` in `ys`, offset by `i`. -/
def idxFrom (i : Nat) (x : α) : List α → List Nat
  | [] => []
  | y :: ys => if y = x then i :: idxFrom (i + 1) x ys else idxFrom (i + 1) x ys

/-- The `b2j` index: ascending positions of `x` in `b`, empty for popular
elements. -/
def b2j (b : List α) (x : α) : List Nat :=
  if isPopular b x then [] else idxFrom 0 x b

/-- A matching block `(besti, bestj, bestsize)`. -/
structure FMatch where
  i : Nat
  j : Nat
  size : Nat
deriving DecidableEq, Repr

/-- The value the inner loop writes into `newj2len[j]`:
`k = j2len.get(j-1, 0) + 1` (a Python dict of chain lengths is a function
`Nat → Nat` defaulting to `0`; the key `j-1 = -1` for `j = 0` is absent). -/
def stepV (j2len : Nat → Nat) (j : Nat) : Nat :=
  (if j = 0 then 0 else j2len (j - 1)) + 1

/-- The inner loop of `find_longest_match` for one row `i`: walk the
ascending `js = b2j[a[i]]`, skipping `j < blo`, breaking at `j >= bhi`;
`k = newj2len[j] = j2len.get(j-1, 0) + 1`, and the best triple is replaced
when `k > bestsize`. -/
def dpJs (i blo bhi : Nat) (j2len : Nat → Nat) :
    List Nat → (Nat → Nat) → FMatch → (Nat → Nat) × FMatch
  | [], new, best => (new, best)
  | j :: js, new, best =>
      if j < blo then dpJs i blo bhi j2len js new best
      else if bhi ≤ j then (new, best)
      else
        let k := stepV j2len j
        let new' : Nat → Nat := fun j' => if j' = j then k else new j'
        -- Python `i-k+1` / `j-k+1`; since `k ≤ i+1` and `k ≤ j+1` these are
        -- the natural numbers `i+1-k` and `j+1-k`.
        let best' := if best.size < k then ⟨i + 1 - k, j + 1 - k, k⟩ else best
        dpJs i blo bhi j2len js new' best'

/-- The outer loop of `find_longest_match`: rows `i = alo, ..., ahi-1`; the
window `win` is `a[alo:ahi]` and each row starts a fresh `newj2len`. -/
def dpOuter (b : List α) (blo bhi : Nat) :
    Nat → List α → (Nat → Nat) → FMatch → (Nat → Nat) × FMatch
  | _, [], j2len, best => (j2len, best)
  | i, x :: win, j2len, best =>
      let st := dpJs i blo bhi j2len (b2j b x) (fun _ => 0) best
      dpOuter b blo bhi (i + 1) win st.1 st.2

/-- `a[ia] == b[jb]`, false when either index is out of range. -/
def pairEq (a b : List α) (ia jb : Nat) : Bool :=
  match a.get? ia, b.get? jb with
  | some x, some y => x = y
  | _, _ => false

/-- `isbjunk(b[jb])`, false when out of range. -/
def junkAt (b : List α) (jb : Nat) : Bool :=
  match b.get? jb with
  | some y => isBJunk b y
  | none => false

/-- First extension loop: extend left over equal non-junk elements. -/
def extLeftNJ (a b : List α) (alo blo : Nat) : Nat → FMatch → FMatch
  | 0, m => m
  | f + 1, ⟨i, j, k⟩ =>
      if decide (alo < i) && decide (blo < j) && !junkAt b (j - 1) &&
          pairEq a b (i - 1) (j - 1) then
        extLeftNJ a b alo blo f ⟨i - 1, j - 1, k + 1⟩
      else ⟨i, j, k⟩

/-- Second extension loop: extend right over equal non-junk elements. -/
def extRightNJ (a b : List α) (ahi bhi : Nat) : Nat → FMatch → FMatch
  | 0, m => m
  | f + 1, ⟨i, j, k⟩ =>
      if decide (i + k < ahi) && decide (j + k < bhi) && !junkAt b (j + k) &&
          pairEq a b (i + k) (j + k) then
        extRightNJ a b ahi bhi f ⟨i, j, k + 1⟩
      else ⟨i, j, k⟩

/-- Third extension loop: extend left over equal junk elements. -/
def extLeftJ (a b : List α) (alo blo : Nat) : Nat → FMatch → FMatch
  | 0, m => m
  | f + 1, ⟨i, j, k⟩ =>
      if decide (alo < i) && decide (blo < j) && junkAt b (j - 1) &&
          pairEq a b (i - 1) (j - 1) then
        extLeftJ a b alo blo f ⟨i - 1, j - 1, k + 1⟩
      else ⟨i, j, k⟩

/-- Fourth extension loop: extend right over equal junk elements. -/
def extRightJ (a b : List α) (ahi bhi : Nat) : Nat → FMatch → FMatch
  | 0, m => m
  | f + 1, ⟨i, j, k⟩ =>
      if decide (i + k < ahi) && decide (j + k < bhi) && junkAt b (j + k) &&
          pairEq a b (i + k) (j + k) then
        extRightJ a b ahi bhi f ⟨i, j, k + 1⟩
      else ⟨i, j, k⟩

/-- `find_longest_match(alo, ahi, blo, bhi)`: dynamic-programming scan, then
the four extension loops (each runs at most `a.length + b.length` steps, the
fuel given to it). -/
def findLongestMatch (a b : List α) (alo ahi blo bhi : Nat) : FMatch :=
  let fuel := a.length + b.length + 1
  let st := dpOuter b blo bhi alo ((a.drop alo).take (ahi - alo))
    (fun _ => 0) ⟨alo, blo, 0⟩
  let m1 := extLeftNJ a b alo blo fuel st.2
  let m2 := extRightNJ a b ahi bhi fuel m1
  let m3 := extLeftJ a b alo blo fuel m2
  extRightJ a b ahi bhi fuel m3

/-- Total size of the matching blocks of `get_matching_blocks`, by the
recursive decomposition around the longest match (the queue order and the
merging of adjacent blocks do not change the sum).  Fuel bounds the
recursion depth; `(ahi - alo) + (bhi - blo) + 1` always suffices since each
child window is strictly smaller. -/
def mTotal (a b : List α) : Nat → Nat → Nat → Nat → Nat → Nat
  | 0, _, _, _, _ => 0
  | f + 1, alo, ahi, blo, bhi =>
      let m := findLongestMatch a b alo ahi blo bhi
      if m.size = 0 then 0
      else mTotal a b f alo m.i blo m.j + m.size +
        mTotal a b f (m.i + m.size) ahi (m.j + m.size) bhi

/-- `sum(triple[-1] for triple in get_matching_blocks())`. -/
def matchesTotal (a b : List α) : Nat :=
  mTotal a b (a.length + b.length + 1) 0 a.length 0 b.length

/-- `SequenceMatcher.ratio()`: `2*M / T`, or `1.0` on two empty sequences
(`_calculate_ratio`). -/
def ratioQ (a b : List α) : ℚ :=
  if a.length + b.length = 0 then 1
  else (2 * matchesTotal a b : ℚ) / (a.length + b.length : ℚ)

end SeqMatcher

/-!
## `calculate_similarity` (`app.py` lines 44-81)
-/

/-- `set(re.findall(r'\b\w+\b', s))`. -/
def tokenSet (s : List Char) : Finset (List Char) :=
  (tokensOf s).toFinset

/-- Method 4 of `calculate_similarity`: Jaccard ratio of the two token sets
when at least one is nonempty (`if tokens1 or tokens2`), else `0`. -/
def token_similarity (code1 code2 : List Char) : ℚ :=
  if tokenSet code1 ≠ ∅ ∨ tokenSet code2 ≠ ∅ then
    ((tokenSet code1 ∩ tokenSet code2).card : ℚ) /
      ((tokenSet code1 ∪ tokenSet code2).card : ℚ)
  else 0

/-- The result record of `calculate_similarity`: percentages in `[0, 100]`
rounded to two decimals. -/
structure SimilarityReport where
  overall : ℚ
  sequence : ℚ
  normalized : ℚ
  line_based : ℚ
  token_based : ℚ
deriving DecidableEq, Repr

/-- Method 1: `SequenceMatcher(None, code1, code2).ratio()` on raw text. -/
def seq_similarity (code1 code2 : List Char) : ℚ :=
  ratioQ code1 code2

/-- Method 2: the same ratio on `normalize_code` of both texts. -/
def norm_similarity (code1 code2 : List Char) : ℚ :=
  ratioQ (normalize_code code1) (normalize_code code2)

/-- Method 3: the same ratio on the raw `splitlines()` sequences. -/
def line_similarity (code1 code2 : List Char) : ℚ :=
  ratioQ (splitLines code1) (splitLines code2)

/-- The weighted average `final_similarity` of `calculate_similarity`,
before scaling to a percentage. -/
def final_similarity (code1 code2 : List Char) : ℚ :=
  seq_similarity code1 code2 * 0.3 +
  norm_similarity code1 code2 * 0.3 +
  line_similarity code1 code2 * 0.2 +
  token_similarity code1 code2 * 0.2

/-- `calculate_similarity` from `app.py`. -/
def calculate_similarity (code1 code2 : List Char) : SimilarityReport where
  overall := round2 (final_similarity code1 code2 * 100)
  sequence := round2 (seq_similarity code1 code2 * 100)
  normalized := round2 (norm_similarity code1 code2 * 100)
  line_based := round2 (line_similarity code1 code2 * 100)
  token_based := round2 (token_similarity code1 code2 * 100)

/-!
## `detect_ai_generated` (`app.py` lines 83-147)
-/

/-- The five indicators, in the dict order of `app.py`. -/
structure Indicators where
  comment_density : ℚ
  perfect_indentation : ℚ
  generic_names : ℚ
  documentation_style : ℚ
  complexity : ℚ
deriving DecidableEq, Repr

/-- The all-zero indicator set. -/
def zeroIndicators : Indicators := ⟨0, 0, 0, 0, 0⟩

inductive Confidence where
  | low
  | medium
  | high
deriving DecidableEq, Repr

/-- The result record of `detect_ai_generated`. -/
structure AIReport where
  probability : ℚ
  confidence : Confidence
  indicators : Indicators
deriving DecidableEq, Repr

/-- `l.strip().startswith(('#', '//', '/*', '*'))`. -/
def isCommentLine (l : List Char) : Bool :=
  ['#'].isPrefixOf (pyStrip l) || ['/', '/'].isPrefixOf (pyStrip l) ||
  ['/', '*'].isPrefixOf (pyStrip l) || ['*'].isPrefixOf (pyStrip l)

/-- `l.startswith((' ', '\t'))`. -/
def isIndentedLine (l : List Char) : Bool :=
  [' '].isPrefixOf l || ['\t'].isPrefixOf l

/-- `len(l) - len(l.lstrip())`. -/
def indentLength (l : List Char) : Nat :=
  l.length - (pyLstrip l).length

/-- The generic identifier stems of the `generic_patterns` regex. -/
def genericStems : List (List Char) :=
  [['v','a','r'], ['t','e','m','p'], ['d','a','t','a'],
   ['r','e','s','u','l','t'], ['v','a','l','u','e'], ['i','t','e','m'],
   ['e','l','e','m','e','n','t'], ['o','b','j'], ['a','r','r']]

/-- Whether a word token matches `(var|temp|data|result|value|item|element|obj|arr)\d*`
in full, case-insensitively.  Because the pattern is bracketed by `\b`, the
matches of `re.findall` on the whole text are exactly the word tokens of
this form. -/
def isGenericToken (t : List Char) : Bool :=
  genericStems.any fun stem =>
    stem.isPrefixOf (t.map Char.toLower) &&
    ((t.map Char.toLower).drop stem.length).all Char.isDigit

/-- `len(re.findall(generic_patterns, code, re.IGNORECASE))`. -/
def genericCount (code : List Char) : Nat :=
  ((tokensOf code).filter isGenericToken).length

/-- The suffix that follows the first occurrence of `pat` in `s`, if any. -/
def findAfter (pat : List Char) : List Char → Option (List Char)
  | [] => if pat.isPrefixOf ([] : List Char) then some [] else none
  | c :: cs =>
      if pat.isPrefixOf (c :: cs) then some ((c :: cs).drop pat.length)
      else findAfter pat cs

/-- One alternative of the doc-block regex at the current position: if
`opening` is a prefix and the lazy body finds `closing`, return the suffix
after the match. -/
def tryDocAlt (opening closing s : List Char) : Option (List Char) :=
  if opening.isPrefixOf s then findAfter closing (s.drop opening.length)
  else none

/-- Worker for `docBlockCount`: leftmost non-overlapping matches of
`("""[\s\S]*?"""|\'\'\'[\s\S]*?\'\'\'|/\*\*[\s\S]*?\*/)`, with fuel (the
scanner restarts after each matched span).  Fuel `s.length + 1` suffices:
every step consumes at least one character. -/
def docGo : Nat → List Char → Nat
  | 0, _ => 0
  | _ + 1, [] => 0
  | f + 1, c :: cs =>
      match tryDocAlt ['"', '"', '"'] ['"', '"', '"'] (c :: cs) with
      | some rest => 1 + docGo f rest
      | none =>
        match tryDocAlt ['\'', '\'', '\''] ['\'', '\'', '\''] (c :: cs) with
        | some rest => 1 + docGo f rest
        | none =>
          match tryDocAlt ['/', '*', '*'] ['*', '/'] (c :: cs) with
          | some rest => 1 + docGo f rest
          | none => docGo f cs

/-- `len(re.findall(doc_patterns, code))`. -/
def docBlockCount (code : List Char) : Nat :=
  docGo (code.length + 1) code

/-- `sum(len(l) for l in lines)`. -/
def totalLineLength (lines : List (List Char)) : Nat :=
  (lines.map List.length).sum

/-- `detect_ai_generated` from `app.py`. -/
def detect_ai_generated (code : List Char) : AIReport :=
  let lines := splitLines code
  let total_lines := lines.length
  if total_lines = 0 then ⟨0, Confidence.low, zeroIndicators⟩
  else
    let comment_lines := (lines.filter isCommentLine).length
    let comment_density := round2 ((comment_lines : ℚ) / (total_lines : ℚ) * 100)
    let indented_lines := lines.filter isIndentedLine
    let perfect_indentation : ℚ :=
      if indented_lines ≠ [] then
        if (indented_lines.map indentLength).toFinset.card ≤ 3 then 80 else 30
      else 0
    let generic_names : ℚ := min (genericCount code * 10 : ℚ) 100
    let documentation_style : ℚ := min (docBlockCount code * 20 : ℚ) 100
    let avg_line_length : ℚ :=
      if 0 < total_lines then (totalLineLength lines : ℚ) / (total_lines : ℚ)
      else 0
    let complexity : ℚ :=
      if avg_line_length < 30 then 30
      else if avg_line_length < 50 then 50
      else 70
    let probability :=
      (comment_density + perfect_indentation + generic_names +
        documentation_style + complexity) / (5 * 100) * 100
    let confidence :=
      if 70 < probability then Confidence.high
      else if 40 < probability then Confidence.medium
      else Confidence.low
    ⟨round2 probability, confidence,
      ⟨comment_density, perfect_indentation, generic_names,
        documentation_style, complexity⟩⟩

/-- The sum of the five indicator scores of a report. -/
def indicatorSum (ind : Indicators) : ℚ :=
  ind.comment_density + ind.perfect_indentation + ind.generic_names +
    ind.documentation_style + ind.complexity

/-!
## Definitions following the specification text (for the refinement claims)
-/

/-- Modelled from the spec (§4.3, line-based similarity): "the ordered
sequence of non-blank, whitespace-trimmed lines of each text". -/
def specTrimmedLines (s : List Char) : List (List Char) :=
  ((splitLines s).map pyStrip).filter (· ≠ [])

/-- Modelled from the spec (§4.3): line-based similarity as the matcher
ratio over the trimmed non-blank line sequences, as a percentage. -/
def specLineBased (a b : List Char) : ℚ :=
  round2 (ratioQ (specTrimmedLines a) (specTrimmedLines b) * 100)

/-- Modelled from the spec (§3, TokenFrequencyVector): relative frequency
of token `t` in `s`, `0` for a token-free text. -/
def specTokenFreq (s : List Char) (t : List Char) : ℚ :=
  if (tokensOf s).length = 0 then 0
  else ((tokensOf s).count t : ℚ) / ((tokensOf s).length : ℚ)

/-- The union of the token keys of the two texts, without duplicates. -/
def specTokenKeys (a b : List Char) : List (List Char) :=
  (tokensOf a ++ tokensOf b).dedup

/-- Modelled from the spec (§4.3, token-based similarity): the square of
the cosine similarity of the two token-frequency vectors — the squared dot
product over the union of token keys divided by the product of the squared
Euclidean norms, and `0` if either vector is empty.  The cosine similarity
itself is the nonnegative square root of this rational. -/
def specCosineSq (a b : List Char) : ℚ :=
  if (tokensOf a).length = 0 ∨ (tokensOf b).length = 0 then 0
  else
    ((specTokenKeys a b).map fun t => specTokenFreq a t * specTokenFreq b t).sum ^ 2 /
      (((specTokenKeys a b).map fun t => specTokenFreq a t ^ 2).sum *
       ((specTokenKeys a b).map fun t => specTokenFreq b t ^ 2).sum)

/-!
## Guarded-division variants (for the totality claim)

Every division the Python core performs is re-expressed through `divOpt`,
which refuses a zero divisor; `= some _` of these variants states that the
division-by-zero branch is unreachable.
-/

/-- Division with an explicit zero-divisor check. -/
def divOpt (x y : ℚ) : Option ℚ :=
  if y = 0 then none else some (x / y)

/-- `ratioQ` with its division checked (`_calculate_ratio` divides only
when `length` is nonzero). -/
def ratioChecked {α : Type} [DecidableEq α] (a b : List α) : Option ℚ :=
  if a.length + b.length = 0 then some 1
  else divOpt (2 * matchesTotal a b : ℚ) (a.length + b.length : ℚ)

/-- `token_similarity` with its division checked. -/
def tokenSimilarityChecked (code1 code2 : List Char) : Option ℚ :=
  if tokenSet code1 ≠ ∅ ∨ tokenSet code2 ≠ ∅ then
    divOpt ((tokenSet code1 ∩ tokenSet code2).card : ℚ)
      ((tokenSet code1 ∪ tokenSet code2).card : ℚ)
  else some 0

/-- `calculate_similarity` with every division checked. -/
def calculateSimilarityChecked (code1 code2 : List Char) :
    Option SimilarityReport := do
  let seq ← ratioChecked code1 code2
  let norm ← ratioChecked (normalize_code code1) (normalize_code code2)
  let line ← ratioChecked (splitLines code1) (splitLines code2)
  let tok ← tokenSimilarityChecked code1 code2
  pure
    { overall := round2 ((seq * 0.3 + norm * 0.3 + line * 0.2 + tok * 0.2) * 100)
      sequence := round2 (seq * 100)
      normalized := round2 (norm * 100)
      line_based := round2 (line * 100)
      token_based := round2 (tok * 100) }

/-- `detect_ai_generated` with every division checked. -/
def detectAIChecked (code : List Char) : Option AIReport := do
  let lines := splitLines code
  let total_lines := lines.length
  if total_lines = 0 then pure ⟨0, Confidence.low, zeroIndicators⟩
  else do
    let comment_lines := (lines.filter isCommentLine).length
    let cdRaw ← divOpt (comment_lines : ℚ) (total_lines : ℚ)
    let comment_density := round2 (cdRaw * 100)
    let indented_lines := lines.filter isIndentedLine
    let perfect_indentation : ℚ :=
      if indented_lines ≠ [] then
        if (indented_lines.map indentLength).toFinset.card ≤ 3 then 80 else 30
      else 0
    let generic_names : ℚ := min (genericCount code * 10 : ℚ) 100
    let documentation_style : ℚ := min (docBlockCount code * 20 : ℚ) 100
    let avg_line_length : ℚ ←
      if 0 < total_lines then
        divOpt (totalLineLength lines : ℚ) (total_lines : ℚ)
      else pure 0
    let complexity : ℚ :=
      if avg_line_length < 30 then 30
      else if avg_line_length < 50 then 50
      else 70
    let pRaw ← divOpt
      (comment_density + perfect_indentation + generic_names +
        documentation_style + complexity) (5 * 100)
    let probability := pRaw * 100
    let confidence :=
      if 70 < probability then Confidence.high
      else if 40 < probability then Confidence.medium
      else Confidence.low
    pure ⟨round2 probability, confidence,
      ⟨comment_density, perfect_indentation, generic_names,
        documentation_style, complexity⟩⟩

/-!
## Auxiliary definitions for the proofs
-/

/-- Weight of the raw-sequence sub-score in `calculate_similarity`. -/
def weight_sequence : ℚ := 0.3

/-- Weight of the normalized sub-score. -/
def weight_normalized : ℚ := 0.3

/-- Weight of the line-based sub-score, as a function of the document line
count; `app.py` uses the constant `0.2` for every document size. -/
def weight_line (_total_lines : Nat) : ℚ := 0.2

/-- Weight of the token-based sub-score. -/
def weight_token : ℚ := 0.2

/-- Whether `"/*"` occurs in `s`. -/
def hasOpenMarker : List Char → Bool
  | [] => false
  | c :: cs => (c = '/' && cs.head? = some '*') || hasOpenMarker cs

/-- Whether `"*/"` occurs in `s`. -/
def hasCloseMarker : List Char → Bool
  | [] => false
  | c :: cs => (c = '*' && cs.head? = some '/') || hasCloseMarker cs

section SeqMatcherProofs

variable {α : Type} [DecidableEq α]

/-- Position `j` lies in the window `[lo, hi)` and holds a non-popular
element: at such positions the diagonal of the `j2len` chains of
`find_longest_match(b, b, lo, hi, lo, hi)` can grow. -/
def diagOKB (b : List α) (lo hi j : Nat) : Bool :=
  decide (lo ≤ j) && decide (j < hi) &&
    (match b.get? j with
     | some v => !isPopular b v
     | none => false)

/-- The diagonal chain length at position `j` for the self-comparison of
`b` on the window `[lo, hi)`: the number of consecutive chain-extending
positions ending at `j`, counted from `lo`. -/
def dC (b : List α) (lo hi : Nat) : Nat → Nat
  | 0 => if diagOKB b lo hi 0 then 1 else 0
  | j + 1 =>
      if diagOKB b lo hi (j + 1) then
        if j + 1 = lo then 1 else dC b lo hi j + 1
      else 0

/-- Upper bound available for every entry of the `j2len` table entering
row `r`: `0` before the first row, else the diagonal value of row `r-1`. -/
def prevB (b : List α) (lo hi r : Nat) : Nat :=
  if lo < r then dC b lo hi (r - 1) else 0

/-- Shape invariant of the running best triple during the self-comparison
scan of rows `[lo, rb)`: diagonal, within the window, and still at the
initial `(lo, lo, 0)` while no match has been recorded. -/
def BestBase (lo hi rb : Nat) (m : FMatch) : Prop :=
  m.j = m.i ∧ lo ≤ m.i ∧ m.i + m.size ≤ rb ∧ m.i + m.size ≤ hi ∧
    (m.size = 0 → m.i = lo)

/-- Size invariant of the running best triple: it dominates every diagonal
chain completed strictly before row `rb`. -/
def BestC (b : List α) (lo hi rb : Nat) (m : FMatch) : Prop :=
  ∀ j, lo ≤ j → j < rb → dC b lo hi j ≤ m.size

end SeqMatcherProofs

/-!
## Lemmas
-/

theorem floor_le_pyRound0 (x : ℚ) : ⌊x⌋ ≤ pyRound0 x := by
  unfold pyRound0
  split_ifs <;> omega

theorem intCast_le_round2 {z : ℤ} {q : ℚ} (h : (z : ℚ) ≤ q) :
    (z : ℚ) ≤ round2 q := by
  have h1 : (z * 100 : ℤ) ≤ ⌊q * 100⌋ := by
    rw [Int.le_floor]
    push_cast
    nlinarith
  have h2 : (z * 100 : ℤ) ≤ pyRound0 (q * 100) :=
    le_trans h1 (floor_le_pyRound0 _)
  have h3 : (z * 100 : ℚ) ≤ (pyRound0 (q * 100) : ℚ) := by exact_mod_cast h2
  rw [round2, le_div_iff₀ (by norm_num : (0:ℚ) < 100)]
  linarith

theorem round2_nonneg {q : ℚ} (h : 0 ≤ q) : 0 ≤ round2 q := by
  have := @intCast_le_round2 0 q (by exact_mod_cast h)
  simpa using this

section SeqMatcherLemmas

variable {α : Type} [DecidableEq α]

theorem mem_idxFrom {x : α} :
    ∀ (t : List α) (i j : Nat),
      j ∈ idxFrom i x t ↔ i ≤ j ∧ t.get? (j - i) = some x := by
  intro t
  induction t with
  | nil => intro i j; simp [idxFrom]
  | cons y t ih =>
      intro i j
      rw [idxFrom]
      split_ifs with hy
      · rw [List.mem_cons, ih (i+1) j]
        constructor
        · rintro (rfl | ⟨h1, h2⟩)
          · exact ⟨le_refl _, by simp [hy]⟩
          · refine ⟨by omega, ?_⟩
            rw [show j - i = (j - (i+1)) + 1 by omega]
            simpa using h2
        · rintro ⟨h1, h2⟩
          rcases Nat.eq_or_lt_of_le h1 with rfl | hlt
          · left; rfl
          · right
            refine ⟨by omega, ?_⟩
            rw [show j - i = (j - (i+1)) + 1 by omega] at h2
            simpa using h2
      · rw [ih (i+1) j]
        constructor
        · rintro ⟨h1, h2⟩
          refine ⟨by omega, ?_⟩
          rw [show j - i = (j - (i+1)) + 1 by omega]
          simpa using h2
        · rintro ⟨h1, h2⟩
          rcases Nat.eq_or_lt_of_le h1 with rfl | hlt
          · exact absurd (by simpa using h2) hy
          · refine ⟨by omega, ?_⟩
            rw [show j - i = (j - (i+1)) + 1 by omega] at h2
            simpa using h2

theorem idxFrom_ge {x : α} (t : List α) (i : Nat) :
    ∀ j ∈ idxFrom i x t, i ≤ j :=
  fun j hj => ((mem_idxFrom t i j).mp hj).1

theorem pairwise_idxFrom {x : α} :
    ∀ (t : List α) (i : Nat), (idxFrom i x t).Pairwise (· < ·) := by
  intro t
  induction t with
  | nil => intro i; simp [idxFrom]
  | cons y t ih =>
      intro i
      rw [idxFrom]
      split_ifs with hy
      · rw [List.pairwise_cons]
        refine ⟨fun j hj => ?_, ih (i+1)⟩
        have := idxFrom_ge t (i+1) j hj
        omega
      · exact ih (i+1)

theorem diagOKB_zero_dC {b : List α} {lo hi j : Nat}
    (h : diagOKB b lo hi j = false) : dC b lo hi j = 0 := by
  cases j with
  | zero => simp [dC, h]
  | succ m => simp [dC, h]

theorem diagOKB_bounds {b : List α} {lo hi j : Nat}
    (h : diagOKB b lo hi j = true) : lo ≤ j ∧ j < hi := by
  unfold diagOKB at h
  simp only [Bool.and_eq_true, decide_eq_true_eq] at h
  exact ⟨h.1.1, h.1.2⟩

theorem dC_eq_of_ok {b : List α} {lo hi j : Nat}
    (h : diagOKB b lo hi j = true) :
    dC b lo hi j = if j = lo then 1 else dC b lo hi (j - 1) + 1 := by
  cases j with
  | zero =>
      have hlo : lo = 0 := Nat.le_zero.mp (diagOKB_bounds h).1
      subst hlo
      simp [dC, h]
  | succ m => simp [dC, h]

theorem dC_le {b : List α} (lo hi : Nat) :
    ∀ j, dC b lo hi j ≤ j + 1 - lo := by
  intro j
  induction j with
  | zero =>
      cases hok : diagOKB b lo hi 0 with
      | false => simp [diagOKB_zero_dC hok]
      | true =>
          have hlo : lo = 0 := Nat.le_zero.mp (diagOKB_bounds hok).1
          subst hlo
          simp [dC, hok]
  | succ m ih =>
      cases hok : diagOKB b lo hi (m+1) with
      | false => simp [diagOKB_zero_dC hok]
      | true =>
          have hlo : lo ≤ m + 1 := (diagOKB_bounds hok).1
          rw [dC_eq_of_ok hok]
          split_ifs with hl
          · omega
          · simp only [Nat.add_sub_cancel]
            omega

theorem dC_pos {b : List α} {lo hi j : Nat}
    (h : diagOKB b lo hi j = true) : 1 ≤ dC b lo hi j := by
  rw [dC_eq_of_ok h]
  split_ifs <;> omega

end SeqMatcherLemmas

section DiagInvariant

variable {α : Type} [DecidableEq α]

theorem diagOKB_false_of_lt {b : List α} {lo hi j : Nat} (h : j < lo) :
    diagOKB b lo hi j = false := by
  unfold diagOKB
  have : decide (lo ≤ j) = false := by simp; omega
  rw [this]
  simp

theorem stepV_le_dC_j {b : List α} {lo hi j : Nat} {old : Nat → Nat}
    (hok : diagOKB b lo hi j = true)
    (hB : ∀ j', old j' ≤ dC b lo hi j') :
    stepV old j ≤ dC b lo hi j := by
  rw [dC_eq_of_ok hok, stepV]
  rcases Nat.eq_zero_or_pos j with rfl | hj
  · have hlo : lo = 0 := Nat.le_zero.mp (diagOKB_bounds hok).1
    simp [hlo]
  · have hj' : j ≠ 0 := by omega
    rw [if_neg hj']
    split_ifs with hl
    · have hz : dC b lo hi (j - 1) = 0 :=
        diagOKB_zero_dC (diagOKB_false_of_lt (by omega))
      have := hB (j - 1)
      omega
    · have := hB (j - 1)
      omega

theorem stepV_le_dC_r {b : List α} {lo hi r j : Nat} {old : Nat → Nat}
    (hrok : diagOKB b lo hi r = true)
    (hB2 : ∀ j', old j' ≤ prevB b lo hi r) :
    stepV old j ≤ dC b lo hi r := by
  have hrb := diagOKB_bounds hrok
  rw [stepV]
  rcases Nat.lt_or_ge lo r with hlt | hge
  · have hd : dC b lo hi r = dC b lo hi (r - 1) + 1 := by
      rw [dC_eq_of_ok hrok, if_neg (by omega)]
    have h2 := hB2 (j - 1)
    rw [prevB, if_pos hlt] at h2
    split_ifs <;> omega
  · have hrlo : r = lo := by omega
    have h2 := hB2 (j - 1)
    rw [prevB, if_neg (by omega)] at h2
    have hp := dC_pos hrok
    split_ifs <;> omega

theorem stepV_diag_exact {b : List α} {lo hi r : Nat} {old : Nat → Nat}
    (hrok : diagOKB b lo hi r = true)
    (hB2 : ∀ j', old j' ≤ prevB b lo hi r)
    (hB3 : lo < r → old (r - 1) = dC b lo hi (r - 1)) :
    stepV old r = dC b lo hi r := by
  have hrb := diagOKB_bounds hrok
  rw [stepV]
  rcases Nat.lt_or_ge lo r with hlt | hge
  · have hd : dC b lo hi r = dC b lo hi (r - 1) + 1 := by
      rw [dC_eq_of_ok hrok, if_neg (by omega)]
    rw [if_neg (by omega), hB3 hlt, hd]
  · have hrlo : r = lo := by omega
    have hd : dC b lo hi r = 1 := by
      rw [dC_eq_of_ok hrok, if_pos hrlo]
    rcases Nat.eq_zero_or_pos r with rfl | hr
    · simp [hd]
    · rw [if_neg (by omega), hd]
      have h2 := hB2 (r - 1)
      rw [prevB, if_neg (by omega)] at h2
      omega

theorem junkAt_false (b : List α) (n : Nat) : junkAt b n = false := by
  unfold junkAt isBJunk
  cases b.get? n <;> rfl

theorem pairEq_self {b : List α} {n : Nat} (h : n < b.length) :
    pairEq b b n n = true := by
  unfold pairEq
  rcases List.get?_eq_get h with he
  rw [he]
  simp

end DiagInvariant

section ExtLemmas

variable {α : Type} [DecidableEq α]

theorem extLeftNJ_self {b : List α} {lo : Nat} :
    ∀ (f : Nat) (m : FMatch), m.j = m.i → lo ≤ m.i →
      (extLeftNJ b b lo lo f m).j = (extLeftNJ b b lo lo f m).i ∧
      lo ≤ (extLeftNJ b b lo lo f m).i ∧
      (extLeftNJ b b lo lo f m).i + (extLeftNJ b b lo lo f m).size
        = m.i + m.size ∧
      m.size ≤ (extLeftNJ b b lo lo f m).size := by
  intro f
  induction f with
  | zero => intro m hd hlo; exact ⟨hd, hlo, rfl, le_refl _⟩
  | succ f ih =>
      rintro ⟨i, j, k⟩ hd hlo
      simp only at hd hlo
      subst hd
      rw [extLeftNJ]
      split_ifs with hc
      · simp only [Bool.and_eq_true, decide_eq_true_eq] at hc
        obtain ⟨⟨⟨hlo1, _⟩, _⟩, _⟩ := hc
        have h := ih ⟨j - 1, j - 1, k + 1⟩ rfl (by simp only; omega)
        refine ⟨h.1, h.2.1, ?_, ?_⟩
        · rw [h.2.2.1]
          simp only
          omega
        · have := h.2.2.2
          simp only at this ⊢
          omega
      · exact ⟨rfl, hlo, rfl, le_refl _⟩

theorem extRightNJ_self {b : List α} {hi : Nat} :
    ∀ (f : Nat) (m : FMatch), m.j = m.i → m.i + m.size ≤ hi →
      (extRightNJ b b hi hi f m).j = (extRightNJ b b hi hi f m).i ∧
      (extRightNJ b b hi hi f m).i = m.i ∧
      (extRightNJ b b hi hi f m).i + (extRightNJ b b hi hi f m).size ≤ hi ∧
      m.size ≤ (extRightNJ b b hi hi f m).size := by
  intro f
  induction f with
  | zero => intro m hd hub; exact ⟨hd, rfl, hub, le_refl _⟩
  | succ f ih =>
      rintro ⟨i, j, k⟩ hd hub
      simp only at hd hub
      subst hd
      rw [extRightNJ]
      split_ifs with hc
      · simp only [Bool.and_eq_true, decide_eq_true_eq] at hc
        obtain ⟨⟨⟨hub1, _⟩, _⟩, _⟩ := hc
        have h := ih ⟨j, j, k + 1⟩ rfl (by simp only at hub1 ⊢; omega)
        refine ⟨h.1, h.2.1, h.2.2.1, ?_⟩
        have := h.2.2.2
        simp only at this ⊢
        omega
      · exact ⟨rfl, rfl, hub, le_refl _⟩

theorem extRightNJ_self_pos {b : List α} {hi : Nat} (hlen : hi ≤ b.length) :
    ∀ (f : Nat) (i : Nat), i < hi → 1 ≤ f →
      1 ≤ (extRightNJ b b hi hi f ⟨i, i, 0⟩).size := by
  intro f i hi1 hf
  cases f with
  | zero => omega
  | succ f =>
      rw [extRightNJ]
      rw [if_pos]
      · have h := @extRightNJ_self α _ b hi f ⟨i, i, 1⟩ rfl
          (by simp only; omega)
        exact h.2.2.2
      · simp only [Nat.add_zero, junkAt_false, Bool.not_false, Bool.and_true]
        rw [pairEq_self (by omega)]
        simp only [Bool.and_true, Bool.and_eq_true, decide_eq_true_eq]
        omega

theorem extLeftJ_noop {a b : List α} {alo blo : Nat} :
    ∀ (f : Nat) (m : FMatch), extLeftJ a b alo blo f m = m := by
  intro f m
  cases f with
  | zero => rfl
  | succ f =>
      obtain ⟨i, j, k⟩ := m
      rw [extLeftJ, if_neg]
      rw [junkAt_false]
      simp

theorem extRightJ_noop {a b : List α} {ahi bhi : Nat} :
    ∀ (f : Nat) (m : FMatch), extRightJ a b ahi bhi f m = m := by
  intro f m
  cases f with
  | zero => rfl
  | succ f =>
      obtain ⟨i, j, k⟩ := m
      rw [extRightJ, if_neg]
      rw [junkAt_false]
      simp

end ExtLemmas

section DpInvariant

variable {α : Type} [DecidableEq α]

theorem diagOKB_of_get {b : List α} {lo hi j : Nat} {x : α}
    (h1 : lo ≤ j) (h2 : j < hi) (hx : b.get? j = some x)
    (hpop : isPopular b x = false) : diagOKB b lo hi j = true := by
  unfold diagOKB
  rw [hx]
  simp [h1, h2, hpop]

theorem dpJs_go {b : List α} {lo hi r : Nat} {x : α} {old : Nat → Nat}
    (hlo : lo ≤ r) (hr : r < hi)
    (hx : b.get? r = some x) (hpop : isPopular b x = false)
    (hB : ∀ j', old j' ≤ dC b lo hi j')
    (hB2 : ∀ j', old j' ≤ prevB b lo hi r)
    (hB3 : lo < r → old (r - 1) = dC b lo hi (r - 1)) :
    ∀ (js : List Nat) (new : Nat → Nat) (best : FMatch),
      js.Pairwise (· < ·) →
      (∀ j ∈ js, b.get? j = some x) →
      (r ∈ js ∨ dC b lo hi r ≤ best.size) →
      BestBase lo hi (r + 1) best →
      BestC b lo hi r best →
      (∀ j', (dpJs r lo hi old js new best).1 j' =
        if j' ∈ js ∧ lo ≤ j' ∧ j' < hi then stepV old j' else new j') ∧
      BestBase lo hi (r + 1) (dpJs r lo hi old js new best).2 ∧
      BestC b lo hi r (dpJs r lo hi old js new best).2 ∧
      dC b lo hi r ≤ (dpJs r lo hi old js new best).2.size := by
  have hrok : diagOKB b lo hi r = true := diagOKB_of_get hlo hr hx hpop
  intro js
  induction js with
  | nil =>
      intro new best _ _ hflag hbase hcstr
      refine ⟨fun j' => by simp [dpJs], hbase, hcstr, ?_⟩
      rcases hflag with h | h
      · exact absurd h (List.not_mem_nil r)
      · exact h
  | cons j rest ih =>
      intro new best hpw hmem hflag hbase hcstr
      obtain ⟨hgt, hpw'⟩ := List.pairwise_cons.mp hpw
      have hmem' : ∀ j' ∈ rest, b.get? j' = some x :=
        fun j' hj' => hmem j' (List.mem_cons_of_mem _ hj')
      have hnotin : j ∉ rest := fun hin => absurd (hgt j hin) (lt_irrefl _)
      simp only [dpJs]
      by_cases h1 : j < lo
      · -- skip: j < blo
        rw [if_pos h1]
        have hflag' : r ∈ rest ∨ dC b lo hi r ≤ best.size := by
          rcases hflag with hmemr | hs
          · rcases List.mem_cons.mp hmemr with rfl | hr'
            · omega
            · exact Or.inl hr'
          · exact Or.inr hs
        obtain ⟨hform, hb1, hb2, hb3⟩ := ih new best hpw' hmem' hflag' hbase hcstr
        refine ⟨fun j' => ?_, hb1, hb2, hb3⟩
        rw [hform j']
        by_cases hjj : j' = j
        · subst hjj
          have hcF1 : ¬ (j' ∈ rest ∧ lo ≤ j' ∧ j' < hi) :=
            fun hc => hnotin hc.1
          have hcF2 : ¬ (j' ∈ j' :: rest ∧ lo ≤ j' ∧ j' < hi) :=
            fun hc => absurd hc.2.1 (by omega)
          rw [if_neg hcF1, if_neg hcF2]
        · have hmi : (j' ∈ j :: rest ∧ lo ≤ j' ∧ j' < hi) ↔
              (j' ∈ rest ∧ lo ≤ j' ∧ j' < hi) := by
            simp [List.mem_cons, hjj]
          rw [if_congr hmi rfl rfl]
      · rw [if_neg h1]
        by_cases h2 : hi ≤ j
        · -- break: bhi ≤ j
          rw [if_pos h2]
          have hge : ∀ j' ∈ j :: rest, j ≤ j' := by
            intro j' hj'
            rcases List.mem_cons.mp hj' with rfl | hj''
            · exact le_refl _
            · exact le_of_lt (hgt j' hj'')
          have hflag' : dC b lo hi r ≤ best.size := by
            rcases hflag with hmemr | hs
            · have := hge r hmemr; omega
            · exact hs
          refine ⟨fun j' => ?_, hbase, hcstr, hflag'⟩
          by_cases hin : j' ∈ j :: rest
          · have hjle := hge j' hin
            have hcF : ¬ (j' ∈ j :: rest ∧ lo ≤ j' ∧ j' < hi) :=
              fun hc => absurd hc.2.2 (by omega)
            rw [if_neg hcF]
          · have hcF : ¬ (j' ∈ j :: rest ∧ lo ≤ j' ∧ j' < hi) :=
              fun hc => hin hc.1
            rw [if_neg hcF]
        · -- process: blo ≤ j < bhi
          rw [if_neg h2]
          push_neg at h1 h2
          have hjok : diagOKB b lo hi j = true :=
            diagOKB_of_get h1 h2 (hmem j (List.mem_cons_self _ _)) hpop
          have hF1 : stepV old j ≤ dC b lo hi j := stepV_le_dC_j hjok hB
          have hF2 : stepV old j ≤ dC b lo hi r := stepV_le_dC_r hrok hB2
          rcases Nat.lt_trichotomy j r with hjr | hjr | hjr
          · -- j < r: the chain value is dominated, no update can fire
            have hnolt : ¬ best.size < stepV old j := by
              have := hcstr j h1 hjr
              omega
            rw [if_neg hnolt]
            have hflag' : r ∈ rest ∨ dC b lo hi r ≤ best.size := by
              rcases hflag with hmemr | hs
              · rcases List.mem_cons.mp hmemr with h' | hr'
                · omega
                · exact Or.inl hr'
              · exact Or.inr hs
            obtain ⟨hform, hb1, hb2, hb3⟩ :=
              ih (fun j' => if j' = j then stepV old j else new j') best
                hpw' hmem' hflag' hbase hcstr
            refine ⟨fun j' => ?_, hb1, hb2, hb3⟩
            rw [hform j']
            by_cases hjj : j' = j
            · subst hjj
              have hcF : ¬ (j' ∈ rest ∧ lo ≤ j' ∧ j' < hi) :=
                fun hc => hnotin hc.1
              have hcT : j' ∈ j' :: rest ∧ lo ≤ j' ∧ j' < hi :=
                ⟨List.mem_cons_self _ _, h1, h2⟩
              rw [if_neg hcF, if_pos hcT]
              simp
            · have hmi : (j' ∈ j :: rest ∧ lo ≤ j' ∧ j' < hi) ↔
                  (j' ∈ rest ∧ lo ≤ j' ∧ j' < hi) := by
                simp [List.mem_cons, hjj]
              rw [if_congr hmi rfl rfl]
              split_ifs <;> simp [hjj]
          · -- j = r: the diagonal entry; an update records the exact value
            subst hjr
            have hF3 : stepV old j = dC b lo hi j :=
              stepV_diag_exact hrok hB2 hB3
            set m' : FMatch :=
              if best.size < stepV old j then
                ⟨j + 1 - stepV old j, j + 1 - stepV old j, stepV old j⟩
              else best with hm'
            have hk1 : 1 ≤ stepV old j := by rw [stepV]; omega
            have hkle : stepV old j ≤ j + 1 - lo :=
              le_trans (le_of_eq hF3) (dC_le lo hi j)
            have hflag' : dC b lo hi j ≤ m'.size := by
              rw [hm']
              by_cases hup : best.size < stepV old j
              · rw [if_pos hup]
                simp only
                omega
              · rw [if_neg hup]
                omega
            have hbase' : BestBase lo hi (j + 1) m' := by
              rw [hm']
              by_cases hup : best.size < stepV old j
              · rw [if_pos hup]
                exact ⟨rfl, by simp only; omega, by simp only; omega,
                  by simp only; omega, fun hz => absurd hz (by simp only; omega)⟩
              · rw [if_neg hup]
                exact hbase
            have hcstr' : BestC b lo hi j m' := by
              rw [hm']
              by_cases hup : best.size < stepV old j
              · rw [if_pos hup]
                intro j' hj1 hj2
                have := hcstr j' hj1 hj2
                simp only
                omega
              · rw [if_neg hup]
                exact hcstr
            obtain ⟨hform, hb1, hb2, hb3⟩ :=
              ih (fun j' => if j' = j then stepV old j else new j') m'
                hpw' hmem' (Or.inr hflag') hbase' hcstr'
            refine ⟨fun j' => ?_, hb1, hb2, hb3⟩
            rw [hform j']
            by_cases hjj : j' = j
            · subst hjj
              have hcF : ¬ (j' ∈ rest ∧ lo ≤ j' ∧ j' < hi) :=
                fun hc => hnotin hc.1
              have hcT : j' ∈ j' :: rest ∧ lo ≤ j' ∧ j' < hi :=
                ⟨List.mem_cons_self _ _, h1, h2⟩
              rw [if_neg hcF, if_pos hcT]
              simp
            · have hmi : (j' ∈ j :: rest ∧ lo ≤ j' ∧ j' < hi) ↔
                  (j' ∈ rest ∧ lo ≤ j' ∧ j' < hi) := by
                simp [List.mem_cons, hjj]
              rw [if_congr hmi rfl rfl]
              split_ifs <;> simp [hjj]
          · -- r < j: the flag already holds, the chain value cannot win
            have hflag0 : dC b lo hi r ≤ best.size := by
              rcases hflag with hmemr | hs
              · rcases List.mem_cons.mp hmemr with h' | hr'
                · omega
                · have := hgt r hr'; omega
              · exact hs
            have hnolt : ¬ best.size < stepV old j := by omega
            rw [if_neg hnolt]
            obtain ⟨hform, hb1, hb2, hb3⟩ :=
              ih (fun j' => if j' = j then stepV old j else new j') best
                hpw' hmem' (Or.inr hflag0) hbase hcstr
            refine ⟨fun j' => ?_, hb1, hb2, hb3⟩
            rw [hform j']
            by_cases hjj : j' = j
            · subst hjj
              have hcF : ¬ (j' ∈ rest ∧ lo ≤ j' ∧ j' < hi) :=
                fun hc => hnotin hc.1
              have hcT : j' ∈ j' :: rest ∧ lo ≤ j' ∧ j' < hi :=
                ⟨List.mem_cons_self _ _, h1, h2⟩
              rw [if_neg hcF, if_pos hcT]
              simp
            · have hmi : (j' ∈ j :: rest ∧ lo ≤ j' ∧ j' < hi) ↔
                  (j' ∈ rest ∧ lo ≤ j' ∧ j' < hi) := by
                simp [List.mem_cons, hjj]
              rw [if_congr hmi rfl rfl]
              split_ifs <;> simp [hjj]

end DpInvariant

section DpOuterInvariant

variable {α : Type} [DecidableEq α]

theorem BestBase_mono {lo hi rb rb' : Nat} {m : FMatch}
    (h : rb ≤ rb') (hb : BestBase lo hi rb m) : BestBase lo hi rb' m :=
  ⟨hb.1, hb.2.1, le_trans hb.2.2.1 h, hb.2.2.2.1, hb.2.2.2.2⟩

theorem diagOKB_false_of_popular {b : List α} {lo hi r : Nat} {y : α}
    (hget : b.get? r = some y) (hpop : isPopular b y = true) :
    diagOKB b lo hi r = false := by
  unfold diagOKB
  rw [hget]
  simp [hpop]

theorem dpOuter_go {b : List α} {lo hi : Nat} (hhi : hi ≤ b.length) :
    ∀ (win : List α) (r : Nat) (tbl : Nat → Nat) (best : FMatch),
      lo ≤ r → r ≤ hi → win = (b.drop r).take (hi - r) →
      (∀ j', tbl j' ≤ dC b lo hi j') →
      (∀ j', tbl j' ≤ prevB b lo hi r) →
      (lo < r → tbl (r - 1) = dC b lo hi (r - 1)) →
      BestBase lo hi r best →
      BestC b lo hi r best →
      BestBase lo hi hi (dpOuter b lo hi r win tbl best).2 ∧
      BestC b lo hi hi (dpOuter b lo hi r win tbl best).2 := by
  intro win
  induction win with
  | nil =>
      intro r tbl best h1 h2 hwin hB hB2 hB3 hbase hc
      have hlen := congrArg List.length hwin
      simp only [List.length_nil, List.length_take, List.length_drop] at hlen
      have hrhi : r = hi := by omega
      subst hrhi
      exact ⟨hbase, hc⟩
  | cons y win ih =>
      intro r tbl best h1 h2 hwin hB hB2 hB3 hbase hc
      have hlen := congrArg List.length hwin
      simp only [List.length_cons, List.length_take, List.length_drop] at hlen
      have hrhi : r < hi := by omega
      have hrlen : r < b.length := by omega
      have hdrop : b.drop r = b.get ⟨r, hrlen⟩ :: b.drop (r + 1) :=
        List.drop_eq_get_cons hrlen
      have htake : (b.drop r).take (hi - r)
          = b.get ⟨r, hrlen⟩ :: (b.drop (r + 1)).take (hi - (r + 1)) := by
        rw [hdrop, show hi - r = (hi - (r + 1)) + 1 by omega,
          List.take_succ_cons]
      rw [htake] at hwin
      obtain ⟨hy, hwin'⟩ := List.cons.injEq .. ▸ hwin
      have hget : b.get? r = some y := by
        rw [List.get?_eq_get hrlen, hy]
      have hrok' : lo ≤ r ∧ r < hi := ⟨h1, hrhi⟩
      simp only [dpOuter]
      cases hpop : isPopular b y with
      | true =>
          -- popular row: b2j is empty, the row resets the table to zero
          have hjs : b2j b y = [] := by rw [b2j, if_pos hpop]
          rw [hjs]
          have hdr : dC b lo hi r = 0 :=
            diagOKB_zero_dC (diagOKB_false_of_popular hget hpop)
          refine ih (r + 1) (fun _ => 0) best (by omega) (by omega) hwin'
            (fun j' => Nat.zero_le _) (fun j' => Nat.zero_le _) ?_ ?_ ?_
          · intro _
            simp only [Nat.add_sub_cancel, hdr]
          · exact BestBase_mono (by omega) hbase
          · intro j hj1 hj2
            rcases Nat.lt_or_ge j r with hjr | hjr
            · exact hc j hj1 hjr
            · have : j = r := by omega
              subst this
              rw [hdr]
              exact Nat.zero_le _
      | false =>
          have hjs : b2j b y = idxFrom 0 y b := by
            rw [b2j, if_neg (by simp [hpop])]
          rw [hjs]
          have hmemr : r ∈ idxFrom 0 y b :=
            (mem_idxFrom b 0 r).mpr ⟨Nat.zero_le _, by simpa using hget⟩
          obtain ⟨hform, hb1, hb2, hb3⟩ :=
            dpJs_go h1 hrhi hget hpop hB hB2 hB3 (idxFrom 0 y b)
              (fun _ => 0) best (pairwise_idxFrom b 0)
              (fun j hj => by simpa using ((mem_idxFrom b 0 j).mp hj).2)
              (Or.inl hmemr)
              (BestBase_mono (by omega) hbase) hc
          refine ih (r + 1)
            (dpJs r lo hi tbl (idxFrom 0 y b) (fun _ => 0) best).1
            (dpJs r lo hi tbl (idxFrom 0 y b) (fun _ => 0) best).2
            (by omega) (by omega) hwin' ?_ ?_ ?_ hb1 ?_
          · intro j'
            rw [hform j']
            split_ifs with hcnd
            · obtain ⟨hmemj, hloj, hhij⟩ := hcnd
              have hjok : diagOKB b lo hi j' = true :=
                diagOKB_of_get hloj hhij
                  (by simpa using ((mem_idxFrom b 0 j').mp hmemj).2) hpop
              exact stepV_le_dC_j hjok hB
            · exact Nat.zero_le _
          · intro j'
            rw [hform j']
            have hprev : prevB b lo hi (r + 1) = dC b lo hi r := by
              rw [prevB, if_pos (by omega)]
              simp
            rw [hprev]
            split_ifs with hcnd
            · exact stepV_le_dC_r (diagOKB_of_get h1 hrhi hget hpop) hB2
            · exact Nat.zero_le _
          · intro _
            rw [Nat.add_sub_cancel, hform r, if_pos ⟨hmemr, h1, hrhi⟩]
            exact stepV_diag_exact (diagOKB_of_get h1 hrhi hget hpop) hB2 hB3
          · intro j hj1 hj2
            rcases Nat.lt_or_ge j r with hjr | hjr
            · exact hb2 j hj1 hjr
            · have hjeq : j = r := by omega
              subst hjeq
              exact hb3

end DpOuterInvariant

section SelfSimilarity

variable {α : Type} [DecidableEq α]

theorem flm_self {b : List α} {lo hi : Nat} (hhi : hi ≤ b.length)
    (hlh : lo ≤ hi) :
    (findLongestMatch b b lo hi lo hi).j = (findLongestMatch b b lo hi lo hi).i ∧
    lo ≤ (findLongestMatch b b lo hi lo hi).i ∧
    (findLongestMatch b b lo hi lo hi).i +
      (findLongestMatch b b lo hi lo hi).size ≤ hi ∧
    (lo < hi → 1 ≤ (findLongestMatch b b lo hi lo hi).size) := by
  have hinitbase : BestBase lo hi lo (⟨lo, lo, 0⟩ : FMatch) :=
    ⟨rfl, le_refl _, by simp, by simpa using hlh, fun _ => rfl⟩
  have hinitc : BestC b lo hi lo (⟨lo, lo, 0⟩ : FMatch) := by
    intro j hj1 hj2
    omega
  obtain ⟨hbase0, _⟩ :=
    dpOuter_go hhi ((b.drop lo).take (hi - lo)) lo (fun _ => 0)
      ⟨lo, lo, 0⟩ (le_refl _) hlh rfl (fun _ => Nat.zero_le _)
      (fun _ => Nat.zero_le _) (by omega) hinitbase hinitc
  simp only [findLongestMatch]
  rw [extRightJ_noop, extLeftJ_noop]
  set m0 := (dpOuter b lo hi lo ((b.drop lo).take (hi - lo))
    (fun _ => 0) ⟨lo, lo, 0⟩).2 with hm0
  obtain ⟨hd0, hlo0, hub0, hhi0, hz0⟩ := hbase0
  set fuel := b.length + b.length + 1 with hfuel
  have hL := @extLeftNJ_self α _ b lo fuel m0 hd0 hlo0
  set m1 := extLeftNJ b b lo lo fuel m0 with hm1
  have hub1 : m1.i + m1.size ≤ hi := by
    rw [hL.2.2.1]
    exact hhi0
  have hR := @extRightNJ_self α _ b hi fuel m1 hL.1 hub1
  refine ⟨hR.1, ?_, hR.2.2.1, ?_⟩
  · rw [hR.2.1]
    exact hL.2.1
  · intro hlohi
    rcases Nat.eq_zero_or_pos m0.size with hzz | hpos
    · have e1 : m1.i = lo := by
        have := hL.2.2.1
        have := hL.2.1
        omega
      have e2 : m1.j = lo := by rw [hL.1, e1]
      have e3 : m1.size = 0 := by
        have := hL.2.2.1
        have := hL.2.1
        omega
      have hm1eq : m1 = ⟨lo, lo, 0⟩ := by
        calc m1 = ⟨m1.i, m1.j, m1.size⟩ := rfl
          _ = ⟨lo, lo, 0⟩ := by rw [e1, e2, e3]
      rw [hm1eq]
      exact extRightNJ_self_pos hhi fuel lo hlohi (by omega)
    · have := hL.2.2.2
      have := hR.2.2.2
      omega

theorem mTotal_self {b : List α} :
    ∀ (f lo hi : Nat), hi ≤ b.length → lo ≤ hi → hi - lo < f →
      mTotal b b f lo hi lo hi = hi - lo := by
  intro f
  induction f with
  | zero => intro lo hi _ _ h; omega
  | succ f ihf =>
      intro lo hi hhi hlh hlt
      obtain ⟨hd, hloi, hub, hpos⟩ := flm_self hhi hlh
      simp only [mTotal]
      rcases Nat.eq_or_lt_of_le hlh with rfl | hlohi
      · rw [if_pos (by omega)]
        omega
      · have h1 : 1 ≤ (findLongestMatch b b lo hi lo hi).size := hpos hlohi
        rw [if_neg (by omega), hd]
        set i := (findLongestMatch b b lo hi lo hi).i
        set k := (findLongestMatch b b lo hi lo hi).size
        have hleft : mTotal b b f lo i lo i = i - lo :=
          ihf lo i (by omega) (by omega) (by omega)
        have hright : mTotal b b f (i + k) hi (i + k) hi = hi - (i + k) :=
          ihf (i + k) hi (by omega) (by omega) (by omega)
        rw [hleft, hright]
        omega

theorem matchesTotal_self (b : List α) : matchesTotal b b = b.length := by
  rw [matchesTotal]
  exact mTotal_self (b.length + b.length + 1) 0 b.length (le_refl _)
    (Nat.zero_le _) (by omega)

theorem ratioQ_self (b : List α) : ratioQ b b = 1 := by
  rw [ratioQ]
  split_ifs with h
  · rfl
  · rw [matchesTotal_self]
    have hne : b.length ≠ 0 := by omega
    have hq : (b.length : ℚ) ≠ 0 := by exact_mod_cast hne
    rw [div_eq_one_iff_eq (by positivity)]
    push_cast
    ring

end SelfSimilarity

/-!
## Claim theorems
-/

theorem token_similarity_self {a : List Char} (h : tokenSet a ≠ ∅) :
    token_similarity a a = 1 := by
  rw [token_similarity, if_pos (Or.inl h), Finset.inter_self, Finset.union_self]
  rw [div_self]
  exact_mod_cast Finset.card_ne_zero.mpr (Finset.nonempty_iff_ne_empty.mpr h)

/-- Claim C1 (counterexample): `compute_similarity("", "")` does not return
overall 100.00: the token branch contributes 0 for token-free texts, so the
weighted sum is `0.3 + 0.3 + 0.2 + 0 = 0.8` and the overall score is 80.0. -/
theorem claim_C1_counterexample :
    (calculate_similarity "".toList "".toList).overall = 80 := by
  show (calculate_similarity ([] : List Char) ([] : List Char)).overall = 80
  have hseq : seq_similarity ([] : List Char) [] = 1 := by
    rw [seq_similarity, ratioQ, if_pos (by simp)]
  have hnorm : norm_similarity ([] : List Char) [] = 1 := by
    rw [norm_similarity]
    have he : normalize_code ([] : List Char) = [] := rfl
    rw [he, ratioQ, if_pos (by simp)]
  have hline : line_similarity ([] : List Char) [] = 1 := by
    rw [line_similarity]
    have he : splitLines ([] : List Char) = [] := rfl
    rw [he, ratioQ, if_pos (by simp)]
  have htok : token_similarity ([] : List Char) [] = 0 := by
    rw [token_similarity, if_neg]
    push_neg
    constructor <;> rfl
  show round2 (final_similarity [] [] * 100) = 80
  rw [final_similarity, hseq, hnorm, hline, htok]
  norm_num [round2, pyRound0]

/-- Claim C1 (amended): for every text with at least one word token,
`compute_similarity(A, A)` returns overall exactly 100.00; for token-free
texts (in particular `""`) the self-comparison returns overall 80.0 instead
(see the counterexample). -/
theorem claim_C1_amended (a : List Char) (h : tokenSet a ≠ ∅) :
    (calculate_similarity a a).overall = 100 := by
  have hseq : seq_similarity a a = 1 := ratioQ_self a
  have hnorm : norm_similarity a a = 1 := ratioQ_self _
  have hline : line_similarity a a = 1 := ratioQ_self _
  have htok : token_similarity a a = 1 := token_similarity_self h
  show round2 (final_similarity a a * 100) = 100
  rw [final_similarity, hseq, hnorm, hline, htok]
  norm_num [round2, pyRound0]

/-- Claim C1 (witness): the amended theorem applied to the one-token text
`"a"`. -/
theorem claim_C1_witness :
    (calculate_similarity "a".toList "a".toList).overall = 100 :=
  claim_C1_amended "a".toList (by decide)

/-- Claim C2 (counterexample): the token_based sub-score is not the cosine
similarity of the token-frequency vectors.  For `"a a a b b b b"` versus
`"a a a a b b b"` the code returns 100 (the two distinct-token sets are
equal), while the squared cosine of the frequency vectors `(3/7, 4/7)` and
`(4/7, 3/7)` is `576/625 < 1`, so the cosine similarity is strictly below
100. -/
theorem claim_C2_counterexample :
    (calculate_similarity "a a a b b b b".toList
      "a a a a b b b".toList).token_based = 100 ∧
    specCosineSq "a a a b b b b".toList "a a a a b b b".toList = 576 / 625 ∧
    ((576 : ℚ) / 625) < 1 := by
  refine ⟨?_, ?_, by norm_num⟩
  · have htok : token_similarity "a a a b b b b".toList
        "a a a a b b b".toList = 1 := by
      rw [token_similarity, if_pos (Or.inl (by decide))]
      rw [show (tokenSet "a a a b b b b".toList ∩
          tokenSet "a a a a b b b".toList).card = 2 from by decide]
      rw [show (tokenSet "a a a b b b b".toList ∪
          tokenSet "a a a a b b b".toList).card = 2 from by decide]
      norm_num
    show round2 (token_similarity "a a a b b b b".toList
      "a a a a b b b".toList * 100) = 100
    rw [htok]
    norm_num [round2, pyRound0]
  · have hfa : specTokenFreq "a a a b b b b".toList "a".toList = 3 / 7 := by
      rw [specTokenFreq, if_neg (by decide)]
      rw [show (tokensOf "a a a b b b b".toList).count "a".toList = 3 from
        by decide]
      rw [show (tokensOf "a a a b b b b".toList).length = 7 from by decide]
      norm_num
    have hfb : specTokenFreq "a a a b b b b".toList "b".toList = 4 / 7 := by
      rw [specTokenFreq, if_neg (by decide)]
      rw [show (tokensOf "a a a b b b b".toList).count "b".toList = 4 from
        by decide]
      rw [show (tokensOf "a a a b b b b".toList).length = 7 from by decide]
      norm_num
    have hga : specTokenFreq "a a a a b b b".toList "a".toList = 4 / 7 := by
      rw [specTokenFreq, if_neg (by decide)]
      rw [show (tokensOf "a a a a b b b".toList).count "a".toList = 4 from
        by decide]
      rw [show (tokensOf "a a a a b b b".toList).length = 7 from by decide]
      norm_num
    have hgb : specTokenFreq "a a a a b b b".toList "b".toList = 3 / 7 := by
      rw [specTokenFreq, if_neg (by decide)]
      rw [show (tokensOf "a a a a b b b".toList).count "b".toList = 3 from
        by decide]
      rw [show (tokensOf "a a a a b b b".toList).length = 7 from by decide]
      norm_num
    rw [specCosineSq, if_neg (by decide)]
    rw [show specTokenKeys "a a a b b b b".toList "a a a a b b b".toList
      = ["a".toList, "b".toList] from by decide]
    simp only [List.map_cons, List.map_nil, List.sum_cons, List.sum_nil,
      hfa, hfb, hga, hgb]
    norm_num

/-- Claim C2 (amended): the token_based sub-score is the Jaccard ratio of
the two distinct-token sets (`len(s1 & s2) / len(s1 | s2)`, and 0 when both
sets are empty).  It is 0 whenever either text has zero tokens, and it is 1
(100%) whenever the two token sets are equal and nonempty — in particular
when the token multisets have identical relative frequencies, as in the
spec's example. -/
theorem claim_C2_amended (a b : List Char) :
    (tokensOf a = [] ∨ tokensOf b = [] → token_similarity a b = 0) ∧
    (tokenSet a = tokenSet b ∧ tokenSet a ≠ ∅ → token_similarity a b = 1) := by
  constructor
  · rintro (h | h)
    · have hset : tokenSet a = ∅ := by rw [tokenSet, h]; rfl
      rw [token_similarity]
      split_ifs with hcond
      · rw [hset, Finset.empty_inter]
        simp
      · rfl
    · have hset : tokenSet b = ∅ := by rw [tokenSet, h]; rfl
      rw [token_similarity]
      split_ifs with hcond
      · rw [hset, Finset.inter_empty]
        simp
      · rfl
  · rintro ⟨heq, hne⟩
    rw [token_similarity, if_pos (Or.inl hne), heq, Finset.inter_self,
      Finset.union_self, div_self]
    rw [heq] at hne
    exact_mod_cast Finset.card_ne_zero.mpr (Finset.nonempty_iff_ne_empty.mpr hne)

/-- Claim C2 (witness): the amended theorem applied to the spec's example
pair `"a a b"` and `"a a a a b b"` (equal token sets, hence score 1). -/
theorem claim_C2_witness :
    token_similarity "a a b".toList "a a a a b b".toList = 1 :=
  (claim_C2_amended "a a b".toList "a a a a b b".toList).2 ⟨by decide, by decide⟩

/-- Claim C3 (counterexample): `detect_ai_likelihood("\n\n")` does not
return the all-zero report.  `"\n\n"` has two (blank) lines, the code
operates on all of `splitlines()` rather than the non-blank lines, the
average line length 0 scores complexity 30, and the probability is 6.0. -/
theorem claim_C3_counterexample :
    (detect_ai_generated "\n\n".toList).probability = 6 ∧
    (detect_ai_generated "\n\n".toList).confidence = Confidence.low ∧
    (detect_ai_generated "\n\n".toList).indicators.complexity = 30 := by
  have hsplit : splitLines "\n\n".toList = [[], []] := by decide
  have hcomm : (List.filter isCommentLine [([] : List Char), []]).length = 0 :=
    by decide
  have hind : List.filter isIndentedLine [([] : List Char), []] = [] := by decide
  have hgen : genericCount "\n\n".toList = 0 := by decide
  have hdoc : docBlockCount "\n\n".toList = 0 := by decide
  have htll : totalLineLength [([] : List Char), []] = 0 := by decide
  simp only [detect_ai_generated, hsplit, hcomm, hind, hgen, hdoc, htll]
  norm_num [round2, pyRound0, min_def]

/-- Claim C3 (amended): only a text whose `splitlines()` is empty — that
is, only the empty string — produces probability 0, confidence low and all
five indicators 0; a nonempty whitespace-only text such as `"\n\n"` instead
gets complexity 30 and probability 6.0 (see the counterexample). -/
theorem claim_C3_amended (code : List Char) (h : splitLines code = []) :
    detect_ai_generated code = ⟨0, Confidence.low, zeroIndicators⟩ := by
  simp only [detect_ai_generated, h, List.length_nil, if_pos]

/-- Claim C3 (witness): the amended theorem applied to the empty string. -/
theorem claim_C3_witness :
    detect_ai_generated "".toList = ⟨0, Confidence.low, zeroIndicators⟩ :=
  claim_C3_amended "".toList (by decide)

theorem findCloseBlock_length :
    ∀ (s d : List Char), findCloseBlock s = some d → d.length + 2 ≤ s.length := by
  intro s
  induction s with
  | nil => intro d h; exact absurd h (by simp [findCloseBlock])
  | cons c cs ih =>
      intro d h
      rw [findCloseBlock] at h
      split_ifs at h with hc
      · obtain ⟨-, hh⟩ := hc
        have hcs : cs ≠ [] := by
          intro he
          rw [he] at hh
          exact absurd hh (by simp)
        have hd : d = cs.tail := by
          injection h with h'
          exact h'.symm
        subst hd
        have := List.length_tail cs
        have : 0 < cs.length := List.length_pos.mpr hcs
        simp only [List.length_cons, List.length_tail]
        omega
      · have := ih d h
        simp only [List.length_cons]
        omega

theorem rbGo_fuel :
    ∀ (f g : Nat) (s : List Char), s.length ≤ f → s.length ≤ g →
      rbGo f s = rbGo g s := by
  intro f
  induction f with
  | zero =>
      intro g s hf hg
      have hs : s = [] := List.eq_nil_of_length_eq_zero (by omega)
      subst hs
      cases g <;> rfl
  | succ f ihf =>
      intro g s hf hg
      cases s with
      | nil => cases g <;> rfl
      | cons c cs =>
          cases g with
          | zero => simp at hg
          | succ g =>
              rw [rbGo, rbGo]
              by_cases hc : c = '/' ∧ cs.head? = some '*'
              · rw [if_pos hc, if_pos hc]
                cases hfc : findCloseBlock cs.tail with
                | some d =>
                    have hd := findCloseBlock_length cs.tail d hfc
                    have htl := List.length_tail cs
                    simp only [List.length_cons] at hf hg
                    exact ihf g d (by omega) (by omega)
                | none =>
                    simp only [List.length_cons] at hf hg
                    exact congrArg (c :: ·) (ihf g cs (by omega) (by omega))
              · rw [if_neg hc, if_neg hc]
                simp only [List.length_cons] at hf hg
                exact congrArg (c :: ·) (ihf g cs (by omega) (by omega))

theorem rbGo_append :
    ∀ (a : List Char), hasOpenMarker a = false →
      ∀ (f : Nat) (d : List Char), a.length + (d.length + 2) ≤ f →
        rbGo f (a ++ '/' :: '*' :: d)
          = a ++ rbGo (f - a.length) ('/' :: '*' :: d) := by
  intro a
  induction a with
  | nil => intro _ f d _; simp
  | cons x a ih =>
      intro h f d hfuel
      simp only [List.length_cons] at hfuel
      have hx : ¬ (x = '/' ∧ (a ++ '/' :: '*' :: d).head? = some '*') := by
        rintro ⟨rfl, hh⟩
        cases a with
        | nil => simp at hh
        | cons y a' =>
            simp only [List.cons_append, List.head?_cons] at hh
            injection hh with hy
            rw [hasOpenMarker] at h
            simp [hy] at h
      have ha : hasOpenMarker a = false := by
        rw [hasOpenMarker] at h
        exact (Bool.or_eq_false_iff.mp h).2
      cases f with
      | zero => omega
      | succ f =>
          rw [List.cons_append, rbGo, if_neg (by simpa using hx)]
          rw [ih ha f d (by omega)]
          simp only [List.cons_append, List.length_cons, Nat.succ_sub_succ]

theorem findCloseBlock_append :
    ∀ (c : List Char), hasCloseMarker c = false →
      ∀ (d : List Char), findCloseBlock (c ++ '*' :: '/' :: d) = some d := by
  intro c
  induction c with
  | nil =>
      intro _ d
      rw [List.nil_append, findCloseBlock, if_pos (by simp)]
      simp
  | cons x c ih =>
      intro h d
      have hx : ¬ (x = '*' ∧ (c ++ '*' :: '/' :: d).head? = some '/') := by
        rintro ⟨rfl, hh⟩
        cases c with
        | nil => simp at hh
        | cons y c' =>
            simp only [List.cons_append, List.head?_cons] at hh
            injection hh with hy
            rw [hasCloseMarker] at h
            simp [hy] at h
      have hc : hasCloseMarker c = false := by
        rw [hasCloseMarker] at h
        exact (Bool.or_eq_false_iff.mp h).2
      rw [List.cons_append, findCloseBlock, if_neg hx]
      exact ih hc d

/-- Claim C4 (counterexample): `normalize` does not remove triple-quoted
spans: `normalize_code` has no rule for triple-quote delimiters, so the
triple-quoted span of the input below survives in the output unchanged (it
remains an infix of the result). -/
theorem claim_C4_counterexample :
    normalize_code "'''x'''".toList = "'''x'''".toList ∧
    "'''x'''".toList <:+: normalize_code "'''x'''".toList := by
  refine ⟨by decide, ?_⟩
  rw [show normalize_code "'''x'''".toList = "'''x'''".toList from by decide]

/-- Claim C4 (amended): the block-comment substitution of `normalize`
removes every leftmost, non-greedy `/* ... */` span: if no `"/*"` occurs
before the opener and no `"*/"` occurs inside the body, the span is deleted
and scanning resumes after the closer.  Triple-quoted spans are not removed
by `normalize` (see the counterexample); the doc-block regex of `app.py`
occurs only inside `detect_ai_generated`. -/
theorem claim_C4_amended (a c d : List Char)
    (h1 : hasOpenMarker a = false) (h2 : hasCloseMarker c = false) :
    removeBlockComments (a ++ '/' :: '*' :: (c ++ '*' :: '/' :: d))
      = a ++ removeBlockComments d := by
  rw [removeBlockComments]
  have hlen : (a ++ '/' :: '*' :: (c ++ '*' :: '/' :: d)).length
      = a.length + (c.length + d.length + 4) := by
    simp only [List.length_append, List.length_cons]
    omega
  rw [rbGo_append a h1 _ (c ++ '*' :: '/' :: d)
    (by simp only [List.length_append, List.length_cons, hlen]; omega)]
  have hrest : (a ++ '/' :: '*' :: (c ++ '*' :: '/' :: d)).length - a.length
      = (c.length + d.length + 3) + 1 := by
    rw [hlen]
    omega
  rw [hrest, rbGo, if_pos (by simp)]
  have htail : ('*' :: (c ++ '*' :: '/' :: d) : List Char).tail
      = c ++ '*' :: '/' :: d := rfl
  rw [show (('*' :: (c ++ '*' :: '/' :: d) : List Char)).tail
    = c ++ '*' :: '/' :: d from rfl]
  rw [findCloseBlock_append c h2 d]
  rw [removeBlockComments]
  exact congrArg (a ++ ·) (rbGo_fuel _ _ d (by omega) (le_refl _))

/-- Claim C4 (witness): the amended theorem applied to
`"x /* y */ z"`-shaped input. -/
theorem claim_C4_witness :
    removeBlockComments ("x ".toList ++ '/' :: '*' ::
        (" y ".toList ++ '*' :: '/' :: " z".toList))
      = "x ".toList ++ removeBlockComments " z".toList :=
  claim_C4_amended "x ".toList " y ".toList " z".toList (by decide) (by decide)

/-- Claim C5 (counterexample): the line_based sub-score is not computed on
trimmed non-blank lines.  For `"a"` versus `" a"` the code compares the raw
`splitlines()` sequences, whose single lines differ, giving 0.0; the spec's
trimmed version compares equal lines and gives 100.0. -/
theorem claim_C5_counterexample :
    (calculate_similarity "a".toList " a".toList).line_based = 0 ∧
    specLineBased "a".toList " a".toList = 100 := by
  constructor
  · show round2 (line_similarity "a".toList " a".toList * 100) = 0
    have h1 : matchesTotal (splitLines "a".toList) (splitLines " a".toList)
        = 0 := by decide
    have h2 : (splitLines "a".toList).length = 1 := by decide
    have h3 : (splitLines " a".toList).length = 1 := by decide
    rw [line_similarity, ratioQ, if_neg (by rw [h2, h3]; omega), h1, h2, h3]
    norm_num [round2, pyRound0]
  · rw [specLineBased,
      show specTrimmedLines " a".toList = specTrimmedLines "a".toList from
        by decide,
      ratioQ_self]
    norm_num [round2, pyRound0]

/-- Claim C5 (amended): the line_based sub-score is the matcher ratio over
the raw `splitlines()` sequences (untrimmed, blank lines included); it
coincides with the spec's trimmed non-blank version exactly when every line
of both texts is already trimmed and non-blank. -/
theorem claim_C5_amended (a b : List Char)
    (ha : ∀ l ∈ splitLines a, pyStrip l = l ∧ l ≠ [])
    (hb : ∀ l ∈ splitLines b, pyStrip l = l ∧ l ≠ []) :
    (calculate_similarity a b).line_based = specLineBased a b := by
  have hta : specTrimmedLines a = splitLines a := by
    rw [specTrimmedLines, List.map_congr_left (fun l hl => (ha l hl).1),
      List.map_id']
    exact List.filter_eq_self.mpr (fun l hl => by simp [(ha l hl).2])
  have htb : specTrimmedLines b = splitLines b := by
    rw [specTrimmedLines, List.map_congr_left (fun l hl => (hb l hl).1),
      List.map_id']
    exact List.filter_eq_self.mpr (fun l hl => by simp [(hb l hl).2])
  show round2 (line_similarity a b * 100) = specLineBased a b
  rw [specLineBased, hta, htb, line_similarity]

/-- Claim C5 (witness): the amended theorem applied to two texts whose
lines are all trimmed and non-blank. -/
theorem claim_C5_witness :
    (calculate_similarity "ab\ncd".toList "ab".toList).line_based
      = specLineBased "ab\ncd".toList "ab".toList :=
  claim_C5_amended "ab\ncd".toList "ab".toList (by decide) (by decide)

set_option maxHeartbeats 4000000 in
set_option maxRecDepth 8000 in
/-- Claim C6 (counterexample): the overall score is not symmetric.
`difflib`'s matcher is asymmetric: for `"tide"` / `"diet"` it finds one
matching character one way and two the other way, so `compute_similarity`
returns overall 15.0 one way and 30.0 the other. -/
theorem claim_C6_counterexample :
    (calculate_similarity "tide".toList "diet".toList).overall = 15 ∧
    (calculate_similarity "diet".toList "tide".toList).overall = 30 := by
  have hn1 : normalize_code "tide".toList = "tide".toList := by decide
  have hn2 : normalize_code "diet".toList = "diet".toList := by decide
  have hl1 : (splitLines "tide".toList).length = 1 := by decide
  have hl2 : (splitLines "diet".toList).length = 1 := by decide
  have hlen1 : "tide".toList.length = 4 := by decide
  have hlen2 : "diet".toList.length = 4 := by decide
  constructor
  · have hm : matchesTotal "tide".toList "diet".toList = 1 := by decide
    have hml : matchesTotal (splitLines "tide".toList)
        (splitLines "diet".toList) = 0 := by decide
    have hseq : seq_similarity "tide".toList "diet".toList = 1/4 := by
      rw [seq_similarity, ratioQ, if_neg (by rw [hlen1, hlen2]; omega),
        hm, hlen1, hlen2]
      norm_num
    have hnorm : norm_similarity "tide".toList "diet".toList = 1/4 := by
      rw [norm_similarity, hn1, hn2]
      exact hseq
    have hline : line_similarity "tide".toList "diet".toList = 0 := by
      rw [line_similarity, ratioQ, if_neg (by rw [hl1, hl2]; omega),
        hml, hl1, hl2]
      norm_num
    have htok : token_similarity "tide".toList "diet".toList = 0 := by
      rw [token_similarity, if_pos (Or.inl (by decide)),
        show (tokenSet "tide".toList ∩ tokenSet "diet".toList).card = 0 from
          by decide,
        show (tokenSet "tide".toList ∪ tokenSet "diet".toList).card = 2 from
          by decide]
      norm_num
    show round2 (final_similarity "tide".toList "diet".toList * 100) = 15
    rw [final_similarity, hseq, hnorm, hline, htok]
    norm_num [round2, pyRound0]
  · have hm : matchesTotal "diet".toList "tide".toList = 2 := by decide
    have hml : matchesTotal (splitLines "diet".toList)
        (splitLines "tide".toList) = 0 := by decide
    have hseq : seq_similarity "diet".toList "tide".toList = 1/2 := by
      rw [seq_similarity, ratioQ, if_neg (by rw [hlen1, hlen2]; omega),
        hm, hlen1, hlen2]
      norm_num
    have hnorm : norm_similarity "diet".toList "tide".toList = 1/2 := by
      rw [norm_similarity, hn1, hn2]
      exact hseq
    have hline : line_similarity "diet".toList "tide".toList = 0 := by
      rw [line_similarity, ratioQ, if_neg (by rw [hl1, hl2]; omega),
        hml, hl1, hl2]
      norm_num
    have htok : token_similarity "diet".toList "tide".toList = 0 := by
      rw [token_similarity, if_pos (Or.inl (by decide)),
        show (tokenSet "diet".toList ∩ tokenSet "tide".toList).card = 0 from
          by decide,
        show (tokenSet "diet".toList ∪ tokenSet "tide".toList).card = 2 from
          by decide]
      norm_num
    show round2 (final_similarity "diet".toList "tide".toList * 100) = 30
    rw [final_similarity, hseq, hnorm, hline, htok]
    norm_num [round2, pyRound0]

/-- Claim C6 (amended): the token_based sub-score is always symmetric, and
the overall score is symmetric for exactly those pairs on which the
sequence matcher's ratio is symmetric for the raw texts, the normalized
texts and the line sequences (for example identical texts, or pairs such as
the witness below); in general the matcher ratio, and with it the overall
score, can differ under swapping the arguments. -/
theorem claim_C6_amended (a b : List Char)
    (h1 : ratioQ a b = ratioQ b a)
    (h2 : ratioQ (normalize_code a) (normalize_code b)
      = ratioQ (normalize_code b) (normalize_code a))
    (h3 : ratioQ (splitLines a) (splitLines b)
      = ratioQ (splitLines b) (splitLines a)) :
    (calculate_similarity a b).overall = (calculate_similarity b a).overall := by
  have htok : token_similarity a b = token_similarity b a := by
    rw [token_similarity, token_similarity]
    by_cases hc : tokenSet a ≠ ∅ ∨ tokenSet b ≠ ∅
    · rw [if_pos hc, if_pos hc.symm, Finset.inter_comm, Finset.union_comm]
    · rw [if_neg hc, if_neg (fun hc' => hc hc'.symm)]
  show round2 (final_similarity a b * 100) = round2 (final_similarity b a * 100)
  rw [final_similarity, final_similarity, seq_similarity, seq_similarity,
    norm_similarity, norm_similarity, line_similarity, line_similarity,
    h1, h2, h3, htok]

set_option maxHeartbeats 1000000 in
set_option maxRecDepth 8000 in
/-- Claim C6 (witness): the amended theorem applied to `"ab"` / `"ba"`,
a pair on which the matcher ratio happens to be symmetric. -/
theorem claim_C6_witness :
    (calculate_similarity "ab".toList "ba".toList).overall
      = (calculate_similarity "ba".toList "ab".toList).overall := by
  have e1 : ratioQ "ab".toList "ba".toList = 1/2 := by
    rw [ratioQ, if_neg (by decide), show matchesTotal "ab".toList "ba".toList
      = 1 from by decide]
    norm_num
  have e2 : ratioQ "ba".toList "ab".toList = 1/2 := by
    rw [ratioQ, if_neg (by decide), show matchesTotal "ba".toList "ab".toList
      = 1 from by decide]
    norm_num
  have e3 : ratioQ (splitLines "ab".toList) (splitLines "ba".toList) = 0 := by
    rw [ratioQ, if_neg (by decide),
      show matchesTotal (splitLines "ab".toList) (splitLines "ba".toList)
        = 0 from by decide]
    norm_num
  have e4 : ratioQ (splitLines "ba".toList) (splitLines "ab".toList) = 0 := by
    rw [ratioQ, if_neg (by decide),
      show matchesTotal (splitLines "ba".toList) (splitLines "ab".toList)
        = 0 from by decide]
    norm_num
  exact claim_C6_amended "ab".toList "ba".toList (e1.trans e2.symm)
    (by rw [show normalize_code "ab".toList = "ab".toList from by decide,
          show normalize_code "ba".toList = "ba".toList from by decide]
        exact e1.trans e2.symm)
    (e3.trans e4.symm)

theorem detect_shape (code : List Char) (h : splitLines code ≠ []) :
    ∃ cd pi gn ds cx : ℚ,
      detect_ai_generated code =
        ⟨round2 ((cd + pi + gn + ds + cx) / (5 * 100) * 100),
         if 70 < (cd + pi + gn + ds + cx) / (5 * 100) * 100 then Confidence.high
         else if 40 < (cd + pi + gn + ds + cx) / (5 * 100) * 100 then
           Confidence.medium
         else Confidence.low,
         ⟨cd, pi, gn, ds, cx⟩⟩ ∧
      0 ≤ cd ∧ 0 ≤ pi ∧ 0 ≤ gn ∧ 0 ≤ ds ∧ (cx = 30 ∨ cx = 50 ∨ cx = 70) := by
  have hne : ¬ (splitLines code).length = 0 :=
    fun hh => h (List.length_eq_zero.mp hh)
  simp only [detect_ai_generated, if_neg hne]
  refine ⟨_, _, _, _, _, rfl, ?_, ?_, ?_, ?_, ?_⟩
  · exact round2_nonneg (by positivity)
  · split_ifs <;> norm_num
  · exact le_min (by positivity) (by norm_num)
  · exact le_min (by positivity) (by norm_num)
  · split_ifs <;> simp

/-- Claim C7 (confirmed): for a text with at least one line, the returned
probability is the simple mean of the five indicator scores rounded to two
decimals, and the confidence is high exactly when the mean exceeds 70,
medium exactly when it lies in `(40, 70]`, and low exactly when it is at
most 40 (the code compares the thresholds against the unrounded mean). -/
theorem claim_C7 (code : List Char) (h : splitLines code ≠ []) :
    (detect_ai_generated code).probability
      = round2 (indicatorSum (detect_ai_generated code).indicators / 5) ∧
    ((detect_ai_generated code).confidence = Confidence.high ↔
      70 < indicatorSum (detect_ai_generated code).indicators / 5) ∧
    ((detect_ai_generated code).confidence = Confidence.medium ↔
      (40 < indicatorSum (detect_ai_generated code).indicators / 5 ∧
        indicatorSum (detect_ai_generated code).indicators / 5 ≤ 70)) ∧
    ((detect_ai_generated code).confidence = Confidence.low ↔
      indicatorSum (detect_ai_generated code).indicators / 5 ≤ 40) := by
  obtain ⟨cd, pi, gn, ds, cx, heq, -, -, -, -, -⟩ := detect_shape code h
  rw [heq]
  have harith : ∀ s : ℚ, s / (5 * 100) * 100 = s / 5 := fun s => by ring
  simp only [indicatorSum, harith]
  set S := cd + pi + gn + ds + cx with hS
  rcases lt_or_le 70 (S / 5) with h70 | h70
  · rw [if_pos h70]
    exact ⟨trivial, ⟨fun _ => h70, fun _ => rfl⟩,
      ⟨fun hc => Confidence.noConfusion hc,
        fun hc => absurd h70 (not_lt.mpr hc.2)⟩,
      ⟨fun hc => Confidence.noConfusion hc,
        fun hc => absurd h70 (not_lt.mpr (le_trans hc (by norm_num)))⟩⟩
  · rw [if_neg (not_lt.mpr h70)]
    rcases lt_or_le 40 (S / 5) with h40 | h40
    · rw [if_pos h40]
      exact ⟨trivial,
        ⟨fun hc => Confidence.noConfusion hc, fun hc => absurd hc (not_lt.mpr h70)⟩,
        ⟨fun _ => ⟨h40, h70⟩, fun _ => rfl⟩,
        ⟨fun hc => Confidence.noConfusion hc,
          fun hc => absurd h40 (not_lt.mpr hc)⟩⟩
    · rw [if_neg (not_lt.mpr h40)]
      exact ⟨trivial,
        ⟨fun hc => Confidence.noConfusion hc,
          fun hc => absurd (lt_trans (by norm_num) hc) (not_lt.mpr h40)⟩,
        ⟨fun hc => Confidence.noConfusion hc,
          fun hc => absurd hc.1 (not_lt.mpr h40)⟩,
        ⟨fun _ => h40, fun _ => rfl⟩⟩

/-- Claim C7 (witness): the theorem applied to the one-line text `"x"`. -/
theorem claim_C7_witness :
    (detect_ai_generated "x".toList).probability
      = round2 (indicatorSum (detect_ai_generated "x".toList).indicators / 5) :=
  (claim_C7 "x".toList (by decide)).1

/-- Claim C10 (confirmed): for every text with at least one line after
splitting, the complexity indicator is 30, 50 or 70, and the returned
probability is at least 6.0; the all-zero report arises only for the empty
string. -/
theorem claim_C10 (code : List Char) (h : splitLines code ≠ []) :
    ((detect_ai_generated code).indicators.complexity = 30 ∨
      (detect_ai_generated code).indicators.complexity = 50 ∨
      (detect_ai_generated code).indicators.complexity = 70) ∧
    6 ≤ (detect_ai_generated code).probability := by
  obtain ⟨cd, pi, gn, ds, cx, heq, hcd, hpi, hgn, hds, hcx⟩ := detect_shape code h
  rw [heq]
  have harith : ∀ s : ℚ, s / (5 * 100) * 100 = s / 5 := fun s => by ring
  simp only [harith]
  refine ⟨hcx, ?_⟩
  have hS : (30 : ℚ) ≤ cd + pi + gn + ds + cx := by
    rcases hcx with rfl | rfl | rfl <;> linarith
  have h6 : ((6 : ℤ) : ℚ) ≤ (cd + pi + gn + ds + cx) / 5 := by
    push_cast
    linarith
  have := intCast_le_round2 h6
  simpa using this

/-- Claim C10 (witness): the theorem applied to the one-line text `"x"`. -/
theorem claim_C10_witness :
    6 ≤ (detect_ai_generated "x".toList).probability :=
  (claim_C10 "x".toList (by decide)).2

/-- Claim C8 (confirmed): the four weights of `calculate_similarity`
(0.3, 0.3, 0.2, 0.2) are nonnegative and sum to 1.0; the line-based weight,
as a (constant) function of the document line count, is monotone
non-decreasing; and the pre-rounding overall score is exactly the weighted
linear combination of the four sub-scores, the overall field being that
combination scaled to a percentage and rounded. -/
theorem claim_C8 :
    (0 ≤ weight_sequence ∧ 0 ≤ weight_normalized ∧
      (∀ n, 0 ≤ weight_line n) ∧ 0 ≤ weight_token) ∧
    (∀ n, weight_sequence + weight_normalized + weight_line n + weight_token
      = 1) ∧
    Monotone weight_line ∧
    (∀ a b : List Char,
      final_similarity a b
        = seq_similarity a b * weight_sequence
          + norm_similarity a b * weight_normalized
          + line_similarity a b * weight_line (splitLines a).length
          + token_similarity a b * weight_token ∧
      (calculate_similarity a b).overall
        = round2 (final_similarity a b * 100)) := by
  refine ⟨⟨by norm_num [weight_sequence], by norm_num [weight_normalized],
    fun n => by norm_num [weight_line], by norm_num [weight_token]⟩,
    fun n => by norm_num [weight_sequence, weight_normalized, weight_line,
      weight_token], monotone_const, fun a b => ⟨rfl, rfl⟩⟩

theorem ratioChecked_eq {β : Type} [DecidableEq β] (x y : List β) :
    ratioChecked x y = some (ratioQ x y) := by
  rw [ratioChecked, ratioQ]
  split_ifs with h
  · rfl
  · rw [divOpt, if_neg]
    intro hc
    apply h
    exact_mod_cast hc

theorem tokenSimilarityChecked_eq (a b : List Char) :
    tokenSimilarityChecked a b = some (token_similarity a b) := by
  rw [tokenSimilarityChecked, token_similarity]
  split_ifs with h
  · rw [divOpt, if_neg]
    intro hc
    have hcard : (tokenSet a ∪ tokenSet b).card = 0 := by exact_mod_cast hc
    have hemp := Finset.card_eq_zero.mp hcard
    obtain ⟨hea, heb⟩ := Finset.union_eq_empty.mp hemp
    rcases h with h | h
    · exact h hea
    · exact h heb
  · rfl

/-- Claim C9 (confirmed): both core functions are total — re-expressing
every Python division through a zero-divisor-checked division, the checked
variants of `calculate_similarity` and `detect_ai_generated` return `some`
of the original results on every input, so no division-by-zero branch is
reachable and no error is raised. -/
theorem claim_C9 :
    (∀ a b : List Char,
      calculateSimilarityChecked a b = some (calculate_similarity a b)) ∧
    (∀ a : List Char, detectAIChecked a = some (detect_ai_generated a)) := by
  constructor
  · intro a b
    rw [calculateSimilarityChecked]
    rw [ratioChecked_eq, ratioChecked_eq, ratioChecked_eq,
      tokenSimilarityChecked_eq]
    rfl
  · intro a
    rw [detectAIChecked, detect_ai_generated]
    by_cases h0 : (splitLines a).length = 0
    · simp only [if_pos h0]
      rfl
    · have hq : ((splitLines a).length : ℚ) ≠ 0 := by exact_mod_cast h0
      have hpos : 0 < (splitLines a).length := Nat.pos_of_ne_zero h0
      simp only [if_neg h0, if_pos hpos, divOpt, if_neg hq,
        if_neg (show ¬(5 * 100 : ℚ) = 0 by norm_num), Option.some_bind]
      rfl
